import Mathlib

namespace App

inductive TocNode : Type where
  | mk (id : String) (title : String) (children : List TocNode)

def TocNode.id : TocNode → String
  | .mk i _ _ => i

def TocNode.title : TocNode → String
  | .mk _ t _ => t

def TocNode.children : TocNode → List TocNode
  | .mk _ _ c => c

def addNode : List TocNode → Option String → TocNode → List TocNode
  | nodes, none, newNode => nodes ++ [newNode]
  | [], some _, _ => []
  | TocNode.mk i t c :: rest, some parentId, newNode =>
    (if i = parentId then
      TocNode.mk i t (c ++ [newNode])
     else if 0 < c.length then
      TocNode.mk i t (addNode c (some parentId) newNode)
     else TocNode.mk i t c) :: addNode rest (some parentId) newNode

def updateNodeTitle : List TocNode → String → String → List TocNode
  | [], _, _ => []
  | TocNode.mk i t c :: rest, nodeId, newTitle =>
    (if i = nodeId then
      TocNode.mk i newTitle c
     else if 0 < c.length then
      TocNode.mk i t (updateNodeTitle c nodeId newTitle)
     else TocNode.mk i t c) :: updateNodeTitle rest nodeId newTitle

def deleteNode : List TocNode → String → List TocNode
  | [], _ => []
  | TocNode.mk i t c :: rest, nodeId =>
    if i = nodeId then deleteNode rest nodeId
    else TocNode.mk i t (deleteNode c nodeId) :: deleteNode rest nodeId

def findNode : List TocNode → String → Option TocNode
  | [], _ => none
  | TocNode.mk i t c :: rest, nodeId =>
    if i = nodeId then some (TocNode.mk i t c)
    else
      match findNode c nodeId with
      | some found => some found
      | none => findNode rest nodeId

def descIds : List TocNode → List String
  | [] => []
  | TocNode.mk i _ c :: rest => i :: (descIds c ++ descIds rest)

def getDescendantIds (node : TocNode) : List String :=
  descIds node.children

inductive Pos : Type where
  | top | bottom
deriving DecidableEq

def remove : List TocNode → String → List TocNode × Option TocNode
  | [], _ => ([], none)
  | TocNode.mk i t c :: rest, nodeId =>
    if i = nodeId then
      let r := remove rest nodeId
      (r.1, some (r.2.getD (TocNode.mk i t c)))
    else
      let rc := remove c nodeId
      let r := remove rest nodeId
      (TocNode.mk i t rc.1 :: r.1,
       match r.2 with
       | some d => some d
       | none => rc.2)

def insert : List TocNode → String → TocNode → Pos → List TocNode
  | [], _, _, _ => []
  | TocNode.mk i t c :: rest, tId, nodeToInsert, pos =>
    (if i = tId then
      match pos with
      | Pos.top => [nodeToInsert, TocNode.mk i t c]
      | Pos.bottom => [TocNode.mk i t c, nodeToInsert]
     else
      [TocNode.mk i t (insert c tId nodeToInsert pos)])
    ++ insert rest tId nodeToInsert pos

inductive MoveOutcome : Type where
  | rejectedDescendant | notFoundDragged | moved
deriving DecidableEq

def handleMoveNode (nodes : List TocNode) (draggedId targetId : String) (position : Pos) :
    List TocNode × MoveOutcome :=
  let proceed : List TocNode × MoveOutcome :=
    let r := remove nodes draggedId
    match r.2 with
    | some draggedNode => (insert r.1 targetId draggedNode position, MoveOutcome.moved)
    | none => (nodes, MoveOutcome.notFoundDragged)
  match findNode nodes draggedId with
  | some foundDraggedNode =>
    if targetId ∈ getDescendantIds foundDraggedNode then
      (nodes, MoveOutcome.rejectedDescendant)
    else proceed
  | none => proceed

/-- Preorder observation of a forest: one `(id, title, depth)` triple per node.
A forest is fully determined by this list, so frame conditions ("nothing else
removed / retitled / reordered") are stated through it. -/
def preT : List TocNode → Nat → List (String × String × Nat)
  | [], _ => []
  | TocNode.mk i t c :: rest, d => (i, t, d) :: (preT c (d + 1) ++ preT rest d)

/-- All nodes of a forest, in preorder. -/
def allNodes : List TocNode → List TocNode
  | [] => []
  | TocNode.mk i t c :: rest => TocNode.mk i t c :: (allNodes c ++ allNodes rest)

/-- Every `children` sequence occurring in a forest, in preorder. -/
def childSeqs : List TocNode → List (List TocNode)
  | [] => []
  | TocNode.mk _ _ c :: rest => c :: (childSeqs c ++ childSeqs rest)

/-- Every sequence of a forest: the root sequence and all children sequences. -/
def allSeqs (f : List TocNode) : List (List TocNode) :=
  f :: childSeqs f

/-- Two ids sit immediately next to each other in a sequence. -/
def AdjPair (s : List TocNode) (a b : String) : Prop :=
  ∃ l r x y, s = l ++ x :: y :: r ∧ TocNode.id x = a ∧ TocNode.id y = b

/-- Somewhere in the forest, a node with id `a` is the immediate left sibling
of a node with id `b`. -/
def AdjIn (f : List TocNode) (a b : String) : Prop :=
  ∃ s ∈ allSeqs f, AdjPair s a b

/-- No node of the forest is reachable from itself through `children`:
no node's id recurs among its own transitive descendants. -/
def Acyclic (f : List TocNode) : Prop :=
  ∀ n ∈ allNodes f, n.id ∉ getDescendantIds n

/-- The four mutation operations of the component, as used for the
operation-sequence invariant claims. -/
inductive Op : Type where
  | add (parentId : Option String) (newNode : TocNode)
  | rename (nodeId : String) (newTitle : String)
  | del (nodeId : String)
  | move (draggedId targetId : String) (position : Pos)

def applyOp (f : List TocNode) : Op → List TocNode
  | .add p n => addNode f p n
  | .rename i t => updateNodeTitle f i t
  | .del i => deleteNode f i
  | .move d t p => (handleMoveNode f d t p).1

def applyOps (f : List TocNode) : List Op → List TocNode
  | [] => f
  | op :: rest => applyOps (applyOp f op) rest

/-- An `add` supplies a fresh, internally duplicate-free new node (the
identifier generator's contract); the other operations are unconstrained. -/
def freshOk (f : List TocNode) : Op → Prop
  | .add _ n => (descIds [n]).Nodup ∧ ∀ x ∈ descIds [n], x ∉ descIds f
  | _ => True

def goodOps : List TocNode → List Op → Prop
  | _, [] => True
  | f, op :: rest => freshOk f op ∧ goodOps (applyOp f op) rest

/-! ### Basic equations and induction principle -/

theorem forest_ind (P : List TocNode → Prop)
    (hnil : P [])
    (hcons : ∀ i t c rest, P c → P rest → P (TocNode.mk i t c :: rest)) :
    ∀ f, P f := by
  intro f
  induction f using descIds.induct with
  | case1 => exact hnil
  | case2 i t c rest ihc ihr => exact hcons i t c rest ihc ihr

@[simp] theorem descIds_nil : descIds [] = [] := by
  simp [descIds]

@[simp] theorem descIds_cons (i t : String) (c rest : List TocNode) :
    descIds (TocNode.mk i t c :: rest) = i :: (descIds c ++ descIds rest) := by
  simp [descIds]

theorem descIds_append (a b : List TocNode) :
    descIds (a ++ b) = descIds a ++ descIds b := by
  induction a using forest_ind with
  | hnil => simp
  | hcons i t c rest _ ihr => simp [ihr]

theorem descIds_singleton (n : TocNode) :
    descIds [n] = n.id :: getDescendantIds n := by
  cases n with
  | mk i t c => simp [getDescendantIds, TocNode.id, TocNode.children]

@[simp] theorem preT_nil (d : Nat) : preT [] d = [] := by
  simp [preT]

@[simp] theorem preT_cons (i t : String) (c rest : List TocNode) (d : Nat) :
    preT (TocNode.mk i t c :: rest) d = (i, t, d) :: (preT c (d + 1) ++ preT rest d) := by
  simp [preT]

theorem preT_fst (f : List TocNode) (d : Nat) :
    (preT f d).map (fun tr => tr.1) = descIds f := by
  induction f using forest_ind generalizing d with
  | hnil => simp
  | hcons i t c rest ihc ihr => simp [ihc, ihr]

@[simp] theorem allNodes_nil : allNodes [] = [] := by
  simp [allNodes]

@[simp] theorem allNodes_cons (i t : String) (c rest : List TocNode) :
    allNodes (TocNode.mk i t c :: rest) =
      TocNode.mk i t c :: (allNodes c ++ allNodes rest) := by
  simp [allNodes]

@[simp] theorem childSeqs_nil : childSeqs [] = [] := by
  simp [childSeqs]

@[simp] theorem childSeqs_cons (i t : String) (c rest : List TocNode) :
    childSeqs (TocNode.mk i t c :: rest) = c :: (childSeqs c ++ childSeqs rest) := by
  simp [childSeqs]

/-! ### Not-found no-op lemmas -/

theorem addNode_not_mem {f : List TocNode} {p : String} (n : TocNode)
    (h : p ∉ descIds f) : addNode f (some p) n = f := by
  induction f using forest_ind with
  | hnil => simp [addNode]
  | hcons i t c rest ihc ihr =>
    simp only [descIds_cons, List.mem_cons, List.mem_append] at h
    push_neg at h
    obtain ⟨h1, h2, h3⟩ := h
    simp [addNode, Ne.symm h1, ihc h2, ihr h3]

theorem updateNodeTitle_not_mem {f : List TocNode} {x : String} (t : String)
    (h : x ∉ descIds f) : updateNodeTitle f x t = f := by
  induction f using forest_ind with
  | hnil => simp [updateNodeTitle]
  | hcons i ti c rest ihc ihr =>
    simp only [descIds_cons, List.mem_cons, List.mem_append] at h
    push_neg at h
    obtain ⟨h1, h2, h3⟩ := h
    simp [updateNodeTitle, Ne.symm h1, ihc h2, ihr h3]

theorem deleteNode_not_mem {f : List TocNode} {x : String}
    (h : x ∉ descIds f) : deleteNode f x = f := by
  induction f using forest_ind with
  | hnil => simp [deleteNode]
  | hcons i t c rest ihc ihr =>
    simp only [descIds_cons, List.mem_cons, List.mem_append] at h
    push_neg at h
    obtain ⟨h1, h2, h3⟩ := h
    simp [deleteNode, Ne.symm h1, ihc h2, ihr h3]

theorem insert_not_mem {f : List TocNode} {tId : String} (x : TocNode) (pos : Pos)
    (h : tId ∉ descIds f) : insert f tId x pos = f := by
  induction f using forest_ind with
  | hnil => simp [insert]
  | hcons i t c rest ihc ihr =>
    simp only [descIds_cons, List.mem_cons, List.mem_append] at h
    push_neg at h
    obtain ⟨h1, h2, h3⟩ := h
    simp [insert, Ne.symm h1, ihc h2, ihr h3]

theorem remove_not_mem {f : List TocNode} {x : String}
    (h : x ∉ descIds f) : remove f x = (f, none) := by
  induction f using forest_ind with
  | hnil => simp [remove]
  | hcons i t c rest ihc ihr =>
    simp only [descIds_cons, List.mem_cons, List.mem_append] at h
    push_neg at h
    obtain ⟨h1, h2, h3⟩ := h
    simp [remove, Ne.symm h1, ihc h2, ihr h3]

theorem findNode_eq_none {f : List TocNode} {x : String} :
    findNode f x = none ↔ x ∉ descIds f := by
  induction f using forest_ind with
  | hnil => simp [findNode]
  | hcons i t c rest ihc ihr =>
    by_cases hi : i = x
    · subst hi
      simp [findNode]
    · simp only [findNode, if_neg (fun h => hi h)]
      cases hc : findNode c x with
      | some v =>
        have : x ∈ descIds c := by
          by_contra hx
          rw [← ihc] at hx
          rw [hc] at hx
          exact Option.noConfusion hx
        simp [hc, Ne.symm hi, this]
      | none =>
        have hxc : x ∉ descIds c := ihc.mp hc
        simp [hc, ihr, Ne.symm hi, hxc]

/-! ### Unfolding equations with decided conditions -/

theorem findNode_cons_self (i t : String) (c rest : List TocNode) :
    findNode (TocNode.mk i t c :: rest) i = some (TocNode.mk i t c) := by
  simp [findNode]

theorem findNode_cons_ne {i x : String} (h : i ≠ x) (t : String) (c rest : List TocNode) :
    findNode (TocNode.mk i t c :: rest) x =
      match findNode c x with
      | some v => some v
      | none => findNode rest x := by
  simp [findNode, h]

theorem remove_cons_self (i t : String) (c rest : List TocNode) :
    remove (TocNode.mk i t c :: rest) i =
      ((remove rest i).1, some ((remove rest i).2.getD (TocNode.mk i t c))) := by
  simp [remove]

theorem remove_cons_ne {i x : String} (h : i ≠ x) (t : String) (c rest : List TocNode) :
    remove (TocNode.mk i t c :: rest) x =
      (TocNode.mk i t (remove c x).1 :: (remove rest x).1,
       match (remove rest x).2 with
       | some d => some d
       | none => (remove c x).2) := by
  simp [remove, h]

theorem deleteNode_cons_self (i t : String) (c rest : List TocNode) :
    deleteNode (TocNode.mk i t c :: rest) i = deleteNode rest i := by
  simp [deleteNode]

theorem deleteNode_cons_ne {i x : String} (h : i ≠ x) (t : String) (c rest : List TocNode) :
    deleteNode (TocNode.mk i t c :: rest) x =
      TocNode.mk i t (deleteNode c x) :: deleteNode rest x := by
  simp [deleteNode, h]

/-! ### findNode lemmas -/

theorem findNode_some {f : List TocNode} {x : String} {dn : TocNode}
    (h : findNode f x = some dn) : dn.id = x ∧ x ∈ descIds f := by
  induction f using forest_ind with
  | hnil => simp [findNode] at h
  | hcons i t c rest ihc ihr =>
    by_cases hi : i = x
    · subst hi
      rw [findNode_cons_self] at h
      obtain rfl : TocNode.mk i t c = dn := Option.some.inj h
      simp [TocNode.id]
    · rw [findNode_cons_ne hi] at h
      cases hc : findNode c x with
      | some v =>
        rw [hc] at h
        obtain ⟨h1, h2⟩ := ihc (hc.trans h)
        exact ⟨h1, by simp [h2]⟩
      | none =>
        rw [hc] at h
        obtain ⟨h1, h2⟩ := ihr h
        exact ⟨h1, by simp [h2]⟩

theorem findNode_block {f : List TocNode} {x : String} {dn : TocNode}
    (h : findNode f x = some dn) :
    ∃ pre suf, descIds f = pre ++ descIds [dn] ++ suf := by
  induction f using forest_ind with
  | hnil => simp [findNode] at h
  | hcons i t c rest ihc ihr =>
    by_cases hi : i = x
    · subst hi
      rw [findNode_cons_self] at h
      obtain rfl : TocNode.mk i t c = dn := Option.some.inj h
      exact ⟨[], descIds rest, by simp⟩
    · rw [findNode_cons_ne hi] at h
      cases hc : findNode c x with
      | some v =>
        rw [hc] at h
        obtain ⟨pre, suf, hps⟩ := ihc (hc.trans h)
        exact ⟨i :: pre, suf ++ descIds rest, by simp [hps]⟩
      | none =>
        rw [hc] at h
        obtain ⟨pre, suf, hps⟩ := ihr h
        exact ⟨i :: descIds c ++ pre, suf, by simp [hps]⟩

theorem findNode_append (a b : List TocNode) (x : String) :
    findNode (a ++ b) x =
      match findNode a x with
      | some v => some v
      | none => findNode b x := by
  induction a using forest_ind with
  | hnil => simp [findNode]
  | hcons i t c rest _ ihr =>
    by_cases hi : i = x
    · subst hi
      rw [List.cons_append, findNode_cons_self, findNode_cons_self]
    · rw [List.cons_append, findNode_cons_ne hi, findNode_cons_ne hi, ihr]
      cases findNode c x <;> simp

/-! ### remove lemmas -/

theorem nodup_parts {i : String} {A B : List String}
    (h : (i :: (A ++ B)).Nodup) :
    i ∉ A ∧ i ∉ B ∧ A.Nodup ∧ B.Nodup ∧ ∀ a ∈ A, a ∉ B := by
  rcases List.nodup_cons.mp h with ⟨hi, hAB⟩
  rcases List.nodup_append.mp hAB with ⟨hA, hB, hd⟩
  exact ⟨fun hm => hi (List.mem_append.mpr (Or.inl hm)),
    fun hm => hi (List.mem_append.mpr (Or.inr hm)), hA, hB,
    fun a ha hb => hd ha hb⟩

theorem remove_snd_eq_none {f : List TocNode} {x : String} :
    (remove f x).2 = none ↔ x ∉ descIds f := by
  induction f using forest_ind with
  | hnil => simp [remove]
  | hcons i t c rest ihc ihr =>
    by_cases hi : i = x
    · subst hi
      rw [remove_cons_self]
      simp
    · rw [remove_cons_ne hi]
      cases hr : (remove rest x).2 with
      | some d =>
        have : x ∈ descIds rest := by
          by_contra hx
          rw [← ihr] at hx
          rw [hr] at hx
          exact Option.noConfusion hx
        simp [hr, Ne.symm hi, this]
      | none =>
        have hxr : x ∉ descIds rest := ihr.mp hr
        simp [hr, ihc, Ne.symm hi, hxr]

theorem remove_split {f : List TocNode} {x : String} {dn : TocNode}
    (hnd : (descIds f).Nodup) (h : (remove f x).2 = some dn) :
    dn.id = x ∧ ∃ pre suf,
      descIds f = pre ++ descIds [dn] ++ suf ∧
      descIds (remove f x).1 = pre ++ suf := by
  induction f using forest_ind with
  | hnil => simp [remove] at h
  | hcons i t c rest ihc ihr =>
    rw [descIds_cons] at hnd
    obtain ⟨hic, hir, hndc, hndr, hdisj⟩ := nodup_parts hnd
    by_cases hi : i = x
    · subst hi
      have hrr : remove rest i = (rest, none) := remove_not_mem hir
      rw [remove_cons_self, hrr] at h ⊢
      obtain rfl : TocNode.mk i t c = dn := Option.some.inj h
      exact ⟨rfl, [], descIds rest, by simp, by simp⟩
    · rw [remove_cons_ne hi] at h ⊢
      by_cases hxr : x ∈ descIds rest
      · have hxc : x ∉ descIds c := fun hc => hdisj x hc hxr
        have hcc : remove c x = (c, none) := remove_not_mem hxc
        rw [hcc] at h ⊢
        cases hrs : (remove rest x).2 with
        | none => rw [hrs] at h; exact absurd h (by simp)
        | some d =>
          rw [hrs] at h
          obtain rfl : d = dn := Option.some.inj h
          obtain ⟨hid, pre, suf, h1, h2⟩ := ihr hndr hrs
          refine ⟨hid, i :: descIds c ++ pre, suf, by simp [h1], ?_⟩
          simp [hrs, h2]
      · have hrr : remove rest x = (rest, none) := remove_not_mem hxr
        rw [hrr] at h ⊢
        simp only at h
        obtain ⟨hid, pre, suf, h1, h2⟩ := ihc hndc h
        refine ⟨hid, i :: pre, suf ++ descIds rest, by simp [h1], by simp [h2]⟩

theorem remove_findNode {f : List TocNode} {x : String} {dn : TocNode}
    (hnd : (descIds f).Nodup) (h : (remove f x).2 = some dn) :
    findNode f x = some dn := by
  induction f using forest_ind with
  | hnil => simp [remove] at h
  | hcons i t c rest ihc ihr =>
    rw [descIds_cons] at hnd
    obtain ⟨hic, hir, hndc, hndr, hdisj⟩ := nodup_parts hnd
    by_cases hi : i = x
    · subst hi
      have hrr : remove rest i = (rest, none) := remove_not_mem hir
      rw [remove_cons_self, hrr] at h
      obtain rfl : TocNode.mk i t c = dn := Option.some.inj h
      exact findNode_cons_self i t c rest
    · rw [remove_cons_ne hi] at h
      by_cases hxr : x ∈ descIds rest
      · have hxc : x ∉ descIds c := fun hc => hdisj x hc hxr
        have hcc : remove c x = (c, none) := remove_not_mem hxc
        rw [hcc] at h
        have hfc : findNode c x = none := findNode_eq_none.mpr hxc
        cases hrs : (remove rest x).2 with
        | none => rw [hrs] at h; exact absurd h (by simp)
        | some d =>
          rw [hrs] at h
          obtain rfl : d = dn := Option.some.inj h
          rw [findNode_cons_ne hi, hfc]
          exact ihr hndr hrs
      · have hrr : remove rest x = (rest, none) := remove_not_mem hxr
        rw [hrr] at h
        simp only at h
        have := ihc hndc h
        rw [findNode_cons_ne hi, this]

/-! ### deleteNode / updateNodeTitle structural lemmas -/

theorem deleteNode_sublist (f : List TocNode) (x : String) :
    List.Sublist (descIds (deleteNode f x)) (descIds f) := by
  induction f using forest_ind with
  | hnil => simp [deleteNode]
  | hcons i t c rest ihc ihr =>
    by_cases hi : i = x
    · subst hi
      rw [deleteNode_cons_self, descIds_cons]
      exact (ihr.trans (List.sublist_append_right _ _)).cons i
    · rw [deleteNode_cons_ne hi, descIds_cons, descIds_cons]
      exact (ihc.append ihr).cons₂ i

theorem descIds_updateNodeTitle (f : List TocNode) (x t : String) :
    descIds (updateNodeTitle f x t) = descIds f := by
  induction f using forest_ind with
  | hnil => simp [updateNodeTitle]
  | hcons i ti c rest ihc ihr =>
    by_cases hi : i = x
    · simp [updateNodeTitle, hi, ihr]
    · by_cases hlen : 0 < c.length
      · simp [updateNodeTitle, hi, hlen, ihc, ihr]
      · simp [updateNodeTitle, hi, hlen, ihr]

theorem descIds_cons_node (n : TocNode) (g : List TocNode) :
    descIds (n :: g) = descIds [n] ++ descIds g := by
  cases n with
  | mk i t c => simp

/-! ### insert unfolding and counting -/

theorem insert_cons_self (i t : String) (c rest : List TocNode) (x : TocNode) (pos : Pos) :
    insert (TocNode.mk i t c :: rest) i x pos =
      (match pos with
       | Pos.top => [x, TocNode.mk i t c]
       | Pos.bottom => [TocNode.mk i t c, x]) ++ insert rest i x pos := by
  simp [insert]

theorem insert_cons_ne {i tId : String} (h : i ≠ tId) (t : String) (c rest : List TocNode)
    (x : TocNode) (pos : Pos) :
    insert (TocNode.mk i t c :: rest) tId x pos =
      TocNode.mk i t (insert c tId x pos) :: insert rest tId x pos := by
  simp [insert, h]

theorem insert_count {f : List TocNode} {tId : String} (x : TocNode) (pos : Pos)
    (hnd : (descIds f).Nodup) (hm : tId ∈ descIds f) (a : String) :
    (descIds (insert f tId x pos)).count a =
      (descIds [x]).count a + (descIds f).count a := by
  induction f using forest_ind with
  | hnil => simp at hm
  | hcons i t c rest ihc ihr =>
    rw [descIds_cons] at hnd
    obtain ⟨hic, hir, hndc, hndr, hdisj⟩ := nodup_parts hnd
    by_cases hi : i = tId
    · subst hi
      have hnr : insert rest i x pos = rest := insert_not_mem x pos hir
      rw [insert_cons_self, hnr]
      cases pos with
      | top =>
        show (descIds (x :: TocNode.mk i t c :: rest)).count a =
          (descIds [x]).count a + (descIds (TocNode.mk i t c :: rest)).count a
        rw [descIds_cons_node x (TocNode.mk i t c :: rest), List.count_append]
      | bottom =>
        show (descIds (TocNode.mk i t c :: x :: rest)).count a =
          (descIds [x]).count a + (descIds (TocNode.mk i t c :: rest)).count a
        rw [descIds_cons, descIds_cons, descIds_cons_node x rest]
        simp only [List.count_append, List.count_cons]
        omega
    · rw [insert_cons_ne hi]
      rw [descIds_cons, List.mem_cons] at hm
      rcases hm with hm | hm
      · exact absurd hm.symm hi
      rcases List.mem_append.mp hm with hm | hm
      · have hnr : insert rest tId x pos = rest :=
          insert_not_mem x pos (fun hr => hdisj tId hm hr)
        rw [hnr, descIds_cons, descIds_cons]
        have := ihc hndc hm
        simp only [List.count_append, List.count_cons] at this ⊢
        omega
      · have htc : tId ∉ descIds c := fun hc => hdisj tId hc hm
        have hnc : insert c tId x pos = c := insert_not_mem x pos htc
        rw [hnc, descIds_cons, descIds_cons]
        have := ihr hndr hm
        simp only [List.count_append, List.count_cons] at this ⊢
        omega

/-! ### adjacency lemmas -/

theorem adjPair_append_left (g : List TocNode) {s : List TocNode} {a b : String}
    (h : AdjPair s a b) : AdjPair (g ++ s) a b := by
  obtain ⟨l, r, x, y, hs, hx, hy⟩ := h
  exact ⟨g ++ l, r, x, y, by simp [hs], hx, hy⟩

theorem mem_childSeqs_tail {s : List TocNode} {f : List TocNode} (i t : String)
    (c : List TocNode) (h : s ∈ childSeqs f) :
    s ∈ childSeqs (TocNode.mk i t c :: f) := by
  rw [childSeqs_cons]
  exact List.mem_cons_of_mem _ (List.mem_append.mpr (Or.inr h))

theorem mem_allSeqs_of_child {s c : List TocNode} (i t : String) (rest : List TocNode)
    (h : s ∈ allSeqs c) : s ∈ allSeqs (TocNode.mk i t c :: rest) := by
  rcases List.mem_cons.mp h with rfl | h
  · exact List.mem_cons_of_mem _ (by rw [childSeqs_cons]; exact List.mem_cons_self _ _)
  · exact List.mem_cons_of_mem _
      (by rw [childSeqs_cons]; exact List.mem_cons_of_mem _ (List.mem_append.mpr (Or.inl h)))

theorem adjIn_cons_of_adjIn {g : List TocNode} {a b : String} (n : TocNode)
    (h : AdjIn g a b) : AdjIn (n :: g) a b := by
  obtain ⟨s, hs, hp⟩ := h
  rcases List.mem_cons.mp hs with rfl | hs
  · exact ⟨n :: s, List.mem_cons_self _ _, adjPair_append_left [n] hp⟩
  · cases n with
    | mk i t c => exact ⟨s, List.mem_cons_of_mem _ (mem_childSeqs_tail i t c hs), hp⟩

theorem insert_adj_top {f : List TocNode} {tId : String} (x : TocNode)
    (hm : tId ∈ descIds f) : AdjIn (insert f tId x Pos.top) (TocNode.id x) tId := by
  induction f using forest_ind with
  | hnil => simp at hm
  | hcons i t c rest ihc ihr =>
    by_cases hi : i = tId
    · subst hi
      rw [insert_cons_self]
      exact ⟨x :: TocNode.mk i t c :: insert rest i x Pos.top, List.mem_cons_self _ _,
        [], insert rest i x Pos.top, x, TocNode.mk i t c, by simp, rfl, rfl⟩
    · rw [insert_cons_ne hi]
      rw [descIds_cons, List.mem_cons] at hm
      rcases hm with hm | hm
      · exact absurd hm.symm hi
      by_cases hmc : tId ∈ descIds c
      · obtain ⟨s, hs, hp⟩ := ihc hmc
        exact ⟨s, mem_allSeqs_of_child i t _ hs, hp⟩
      · have hmr : tId ∈ descIds rest := by
          rcases List.mem_append.mp hm with h | h
          · exact absurd h hmc
          · exact h
        have hnc : insert c tId x Pos.top = c := insert_not_mem x Pos.top hmc
        rw [hnc]
        exact adjIn_cons_of_adjIn _ (ihr hmr)

theorem insert_adj_bottom {f : List TocNode} {tId : String} (x : TocNode)
    (hm : tId ∈ descIds f) : AdjIn (insert f tId x Pos.bottom) tId (TocNode.id x) := by
  induction f using forest_ind with
  | hnil => simp at hm
  | hcons i t c rest ihc ihr =>
    by_cases hi : i = tId
    · subst hi
      rw [insert_cons_self]
      exact ⟨TocNode.mk i t c :: x :: insert rest i x Pos.bottom, List.mem_cons_self _ _,
        [], insert rest i x Pos.bottom, TocNode.mk i t c, x, by simp, rfl, rfl⟩
    · rw [insert_cons_ne hi]
      rw [descIds_cons, List.mem_cons] at hm
      rcases hm with hm | hm
      · exact absurd hm.symm hi
      by_cases hmc : tId ∈ descIds c
      · obtain ⟨s, hs, hp⟩ := ihc hmc
        exact ⟨s, mem_allSeqs_of_child i t _ hs, hp⟩
      · have hmr : tId ∈ descIds rest := by
          rcases List.mem_append.mp hm with h | h
          · exact absurd h hmc
          · exact h
        have hnc : insert c tId x Pos.bottom = c := insert_not_mem x Pos.bottom hmc
        rw [hnc]
        exact adjIn_cons_of_adjIn _ (ihr hmr)

/-! ### addNode lemmas -/

theorem addNode_cons_self (i t : String) (c rest : List TocNode) (n : TocNode) :
    addNode (TocNode.mk i t c :: rest) (some i) n =
      TocNode.mk i t (c ++ [n]) :: addNode rest (some i) n := by
  simp [addNode]

theorem addNode_cons_ne {i p : String} (h : i ≠ p) (t : String) (c rest : List TocNode)
    (n : TocNode) :
    addNode (TocNode.mk i t c :: rest) (some p) n =
      TocNode.mk i t (addNode c (some p) n) :: addNode rest (some p) n := by
  by_cases hlen : 0 < c.length
  · simp [addNode, h, hlen]
  · have hc : c = [] := by
      cases c with
      | nil => rfl
      | cons a b => simp at hlen
    subst hc
    simp [addNode, h]

theorem addNode_mem_sub {f : List TocNode} {p a : String} {n : TocNode}
    (h : a ∈ descIds (addNode f (some p) n)) : a ∈ descIds f ∨ a ∈ descIds [n] := by
  induction f using forest_ind with
  | hnil => simp [addNode] at h
  | hcons i t c rest ihc ihr =>
    by_cases hi : i = p
    · subst hi
      rw [addNode_cons_self, descIds_cons, descIds_append] at h
      rcases List.mem_cons.mp h with rfl | h
      · exact Or.inl (by simp)
      rcases List.mem_append.mp h with h | h
      · rcases List.mem_append.mp h with h | h
        · exact Or.inl (by simp [h])
        · exact Or.inr h
      · rcases ihr h with h | h
        · exact Or.inl (by simp [h])
        · exact Or.inr h
    · rw [addNode_cons_ne hi, descIds_cons] at h
      rcases List.mem_cons.mp h with rfl | h
      · exact Or.inl (by simp)
      rcases List.mem_append.mp h with h | h
      · rcases ihc h with h | h
        · exact Or.inl (by simp [h])
        · exact Or.inr h
      · rcases ihr h with h | h
        · exact Or.inl (by simp [h])
        · exact Or.inr h

theorem addNode_count {f : List TocNode} {p : String} (n : TocNode)
    (hnd : (descIds f).Nodup) (hm : p ∈ descIds f) (a : String) :
    (descIds (addNode f (some p) n)).count a =
      (descIds f).count a + (descIds [n]).count a := by
  induction f using forest_ind with
  | hnil => simp at hm
  | hcons i t c rest ihc ihr =>
    rw [descIds_cons] at hnd
    obtain ⟨hic, hir, hndc, hndr, hdisj⟩ := nodup_parts hnd
    by_cases hi : i = p
    · subst hi
      have hnr : addNode rest (some i) n = rest := addNode_not_mem n hir
      rw [addNode_cons_self, hnr, descIds_cons, descIds_cons, descIds_append]
      simp only [List.count_append, List.count_cons]
      omega
    · rw [addNode_cons_ne hi]
      rw [descIds_cons, List.mem_cons] at hm
      rcases hm with hm | hm
      · exact absurd hm.symm hi
      rcases List.mem_append.mp hm with hm | hm
      · have hnr : addNode rest (some p) n = rest :=
          addNode_not_mem n (fun hr => hdisj p hm hr)
        rw [hnr, descIds_cons, descIds_cons]
        have := ihc hndc hm
        simp only [List.count_append, List.count_cons] at this ⊢
        omega
      · have hpc : p ∉ descIds c := fun hc => hdisj p hc hm
        have hnc : addNode c (some p) n = c := addNode_not_mem n hpc
        rw [hnc, descIds_cons, descIds_cons]
        have := ihr hndr hm
        simp only [List.count_append, List.count_cons] at this ⊢
        omega

theorem addNode_findNode_parent {f : List TocNode} {p : String} {np : TocNode}
    (n : TocNode) (h : findNode f p = some np) :
    findNode (addNode f (some p) n) p =
      some (TocNode.mk np.id np.title (np.children ++ [n])) := by
  induction f using forest_ind with
  | hnil => simp [findNode] at h
  | hcons i t c rest ihc ihr =>
    by_cases hi : i = p
    · subst hi
      rw [findNode_cons_self] at h
      obtain rfl : TocNode.mk i t c = np := Option.some.inj h
      rw [addNode_cons_self, findNode_cons_self]
      simp [TocNode.id, TocNode.title, TocNode.children]
    · rw [findNode_cons_ne hi] at h
      rw [addNode_cons_ne hi]
      cases hc : findNode c p with
      | some v =>
        rw [hc] at h
        obtain rfl : v = np := Option.some.inj h
        rw [findNode_cons_ne hi, ihc hc]
      | none =>
        rw [hc] at h
        have hpc : p ∉ descIds c := findNode_eq_none.mp hc
        have hnc : addNode c (some p) n = c := addNode_not_mem n hpc
        rw [hnc, findNode_cons_ne hi, hc]
        exact ihr h

theorem addNode_findNode_frame {f : List TocNode} {p q : String} {nq : TocNode}
    {n : TocNode} (h : findNode f q = some nq) (hp : p ∉ descIds [nq])
    (hq : q ∉ descIds [n]) :
    findNode (addNode f (some p) n) q = some nq := by
  induction f using forest_ind with
  | hnil => simp [findNode] at h
  | hcons i t c rest ihc ihr =>
    by_cases hiq : i = q
    · subst hiq
      rw [findNode_cons_self] at h
      obtain rfl : TocNode.mk i t c = nq := Option.some.inj h
      simp only [descIds_cons, descIds_nil, List.append_nil, List.mem_cons,
        List.mem_append] at hp
      push_neg at hp
      obtain ⟨hp1, hp2⟩ := hp
      rw [addNode_cons_ne (fun he => hp1 he.symm),
        addNode_not_mem n hp2, findNode_cons_self]
    · by_cases hip : i = p
      · subst hip
        rw [findNode_cons_ne hiq] at h
        rw [addNode_cons_self, findNode_cons_ne hiq]
        cases hc : findNode c q with
        | some v =>
          rw [hc] at h
          obtain rfl : v = nq := Option.some.inj h
          rw [findNode_append]
          rw [hc]
        | none =>
          rw [hc] at h
          have hqn : findNode [n] q = none := findNode_eq_none.mpr hq
          rw [findNode_append, hc, hqn]
          exact ihr h
      · rw [findNode_cons_ne hiq] at h
        rw [addNode_cons_ne hip, findNode_cons_ne hiq]
        cases hc : findNode c q with
        | some v =>
          rw [hc] at h
          obtain rfl : v = nq := Option.some.inj h
          rw [ihc hc]
        | none =>
          rw [hc] at h
          have hqc : q ∉ descIds c := findNode_eq_none.mp hc
          have hcq : findNode (addNode c (some p) n) q = none := by
            rw [findNode_eq_none]
            intro hmem
            rcases addNode_mem_sub hmem with hmem | hmem
            · exact hqc hmem
            · exact hq hmem
          rw [hcq]
          exact ihr h

/-! ### updateNodeTitle unfolding -/

theorem updateNodeTitle_cons_self (i t nt : String) (c rest : List TocNode) :
    updateNodeTitle (TocNode.mk i t c :: rest) i nt =
      TocNode.mk i nt c :: updateNodeTitle rest i nt := by
  simp [updateNodeTitle]

theorem updateNodeTitle_cons_ne {i x : String} (h : i ≠ x) (t nt : String)
    (c rest : List TocNode) :
    updateNodeTitle (TocNode.mk i t c :: rest) x nt =
      TocNode.mk i t (updateNodeTitle c x nt) :: updateNodeTitle rest x nt := by
  by_cases hlen : 0 < c.length
  · simp [updateNodeTitle, h, hlen]
  · have hc : c = [] := by
      cases c with
      | nil => rfl
      | cons a b => simp at hlen
    subst hc
    simp [updateNodeTitle, h]

/-! ### Nodup implies acyclicity -/

theorem mem_allNodes_block {f : List TocNode} {n : TocNode} (h : n ∈ allNodes f) :
    ∃ pre suf, descIds f = pre ++ descIds [n] ++ suf := by
  induction f using forest_ind with
  | hnil => simp at h
  | hcons i t c rest ihc ihr =>
    rw [allNodes_cons] at h
    rcases List.mem_cons.mp h with rfl | h
    · exact ⟨[], descIds rest, by simp⟩
    rcases List.mem_append.mp h with h | h
    · obtain ⟨pre, suf, hps⟩ := ihc h
      exact ⟨i :: pre, suf ++ descIds rest, by simp [hps]⟩
    · obtain ⟨pre, suf, hps⟩ := ihr h
      exact ⟨i :: descIds c ++ pre, suf, by simp [hps]⟩

theorem nodup_acyclic {f : List TocNode} (hnd : (descIds f).Nodup) : Acyclic f := by
  intro n hn
  obtain ⟨pre, suf, hps⟩ := mem_allNodes_block hn
  rw [hps] at hnd
  have hblk : (descIds [n]).Nodup := by
    have h1 : List.Sublist (descIds [n]) (descIds [n] ++ suf) :=
      List.sublist_append_left _ _
    have h2 : List.Sublist (descIds [n] ++ suf) (pre ++ (descIds [n] ++ suf)) :=
      List.sublist_append_right _ _
    exact ((h1.trans h2).trans (by rw [List.append_assoc])).nodup hnd
  rw [descIds_singleton] at hblk
  exact (List.nodup_cons.mp hblk).1

/-! ### handleMoveNode path lemmas -/

theorem handleMoveNode_reject {f : List TocNode} {draggedId targetId : String}
    {fd : TocNode} (pos : Pos) (hf : findNode f draggedId = some fd)
    (ht : targetId ∈ getDescendantIds fd) :
    handleMoveNode f draggedId targetId pos = (f, MoveOutcome.rejectedDescendant) := by
  simp [handleMoveNode, hf, ht]

theorem handleMoveNode_eq_proceed {f : List TocNode} {draggedId targetId : String}
    (pos : Pos)
    (h : ∀ fd, findNode f draggedId = some fd → targetId ∉ getDescendantIds fd) :
    handleMoveNode f draggedId targetId pos =
      match (remove f draggedId).2 with
      | some dn => (insert (remove f draggedId).1 targetId dn pos, MoveOutcome.moved)
      | none => (f, MoveOutcome.notFoundDragged) := by
  cases hf : findNode f draggedId with
  | none => simp [handleMoveNode, hf]
  | some fd => simp [handleMoveNode, hf, h fd hf]

/-! ### Nodup preservation -/

theorem nodup_handleMoveNode {f : List TocNode} (draggedId targetId : String) (pos : Pos)
    (hnd : (descIds f).Nodup) :
    (descIds (handleMoveNode f draggedId targetId pos).1).Nodup := by
  by_cases hrej : ∃ fd, findNode f draggedId = some fd ∧ targetId ∈ getDescendantIds fd
  · obtain ⟨fd, hf, ht⟩ := hrej
    rw [handleMoveNode_reject pos hf ht]
    exact hnd
  · push_neg at hrej
    rw [handleMoveNode_eq_proceed pos hrej]
    cases hr : (remove f draggedId).2 with
    | none => exact hnd
    | some dn =>
      show (descIds (insert (remove f draggedId).1 targetId dn pos)).Nodup
      obtain ⟨hid, pre, suf, h1, h2⟩ := remove_split hnd hr
      have hnd1 : (descIds (remove f draggedId).1).Nodup := by
        rw [h2]
        have hs : List.Sublist (pre ++ suf) (pre ++ (descIds [dn] ++ suf)) :=
          (List.sublist_append_right (descIds [dn]) suf).append_left pre
        refine hs.nodup ?_
        rw [← List.append_assoc, ← h1]
        exact hnd
      by_cases hm : targetId ∈ descIds (remove f draggedId).1
      · rw [List.nodup_iff_count_le_one]
        intro a
        rw [insert_count dn pos hnd1 hm a, h2, List.count_append]
        have hle : (descIds f).count a ≤ 1 := List.nodup_iff_count_le_one.mp hnd a
        rw [h1] at hle
        simp only [List.count_append] at hle
        omega
      · rw [insert_not_mem dn pos hm]
        exact hnd1

theorem nodup_applyOp {f : List TocNode} {op : Op}
    (hnd : (descIds f).Nodup) (hok : freshOk f op) :
    (descIds (applyOp f op)).Nodup := by
  cases op with
  | add p n =>
    obtain ⟨hn, hdisj⟩ := hok
    have happ : (descIds f ++ descIds [n]).Nodup := by
      rw [List.nodup_append]
      exact ⟨hnd, hn, fun a haf han => hdisj a han haf⟩
    cases p with
    | none =>
      show (descIds (addNode f none n)).Nodup
      have : addNode f none n = f ++ [n] := by simp [addNode]
      rw [this, descIds_append]
      exact happ
    | some p =>
      show (descIds (addNode f (some p) n)).Nodup
      by_cases hp : p ∈ descIds f
      · have hperm : (descIds (addNode f (some p) n)).Perm (descIds f ++ descIds [n]) := by
          rw [List.perm_iff_count]
          intro a
          rw [addNode_count n hnd hp a, List.count_append]
        exact hperm.nodup_iff.mpr happ
      · rw [addNode_not_mem n hp]
        exact hnd
  | rename i t =>
    show (descIds (updateNodeTitle f i t)).Nodup
    rw [descIds_updateNodeTitle]
    exact hnd
  | del i =>
    show (descIds (deleteNode f i)).Nodup
    exact (deleteNode_sublist f i).nodup hnd
  | move d t p =>
    exact nodup_handleMoveNode d t p hnd

theorem nodup_applyOps {f : List TocNode} {ops : List Op}
    (hnd : (descIds f).Nodup) (hops : goodOps f ops) :
    (descIds (applyOps f ops)).Nodup := by
  induction ops generalizing f with
  | nil => exact hnd
  | cons op rest ih =>
    obtain ⟨hok, hrest⟩ := hops
    exact ih (nodup_applyOp hnd hok) hrest

/-! ### preorder filter / map lemmas for delete and rename -/

theorem preT_mem_fst {g : List TocNode} {d : Nat} {tr : String × String × Nat}
    (h : tr ∈ preT g d) : tr.1 ∈ descIds g := by
  rw [← preT_fst g d]
  exact List.mem_map_of_mem _ h

theorem preT_filter_keep {g : List TocNode} {bad : List String} (d : Nat)
    (h : ∀ a ∈ descIds g, a ∉ bad) :
    (preT g d).filter (fun tr => decide (tr.1 ∉ bad)) = preT g d := by
  apply List.filter_eq_self.mpr
  intro tr htr
  exact decide_eq_true (h tr.1 (preT_mem_fst htr))

theorem preT_filter_drop {g : List TocNode} {bad : List String} (d : Nat)
    (h : ∀ a ∈ descIds g, a ∈ bad) :
    (preT g d).filter (fun tr => decide (tr.1 ∉ bad)) = [] := by
  apply List.filter_eq_nil_iff.mpr
  intro tr htr
  simp [h tr.1 (preT_mem_fst htr)]

theorem preT_map_keep {g : List TocNode} {x : String} (nt : String) (d : Nat)
    (h : x ∉ descIds g) :
    (preT g d).map (fun tr => if tr.1 = x then (tr.1, nt, tr.2.2) else tr) = preT g d := by
  have hc : ∀ tr ∈ preT g d,
      (fun tr => if tr.1 = x then (tr.1, nt, tr.2.2) else tr) tr = id tr := by
    intro tr htr
    have hne : tr.1 ≠ x := fun he => h (he ▸ preT_mem_fst htr)
    simp [hne]
  rw [List.map_congr_left hc, List.map_id]

theorem findNode_block_sub {g : List TocNode} {x : String} {nx : TocNode}
    (h : findNode g x = some nx) : ∀ a ∈ descIds [nx], a ∈ descIds g := by
  obtain ⟨pre, suf, hps⟩ := findNode_block h
  intro a ha
  rw [hps]
  simp [ha]

theorem preT_filter_cons_in {bad : List String} {tr : String × String × Nat}
    (h : tr.1 ∉ bad) (l : List (String × String × Nat)) :
    (tr :: l).filter (fun tr => decide (tr.1 ∉ bad)) =
      tr :: l.filter (fun tr => decide (tr.1 ∉ bad)) := by
  simp [List.filter_cons, h]

theorem preT_filter_cons_out {bad : List String} {tr : String × String × Nat}
    (h : tr.1 ∈ bad) (l : List (String × String × Nat)) :
    (tr :: l).filter (fun tr => decide (tr.1 ∉ bad)) =
      l.filter (fun tr => decide (tr.1 ∉ bad)) := by
  simp [List.filter_cons, h]

theorem deleteNode_preT {f : List TocNode} {x : String} {nx : TocNode}
    (hnd : (descIds f).Nodup) (hf : findNode f x = some nx) (d : Nat) :
    preT (deleteNode f x) d =
      (preT f d).filter (fun tr => decide (tr.1 ∉ descIds [nx])) := by
  induction f using forest_ind generalizing d with
  | hnil => simp [findNode] at hf
  | hcons i t c rest ihc ihr =>
    rw [descIds_cons] at hnd
    obtain ⟨hic, hir, hndc, hndr, hdisj⟩ := nodup_parts hnd
    by_cases hi : i = x
    · subst hi
      rw [findNode_cons_self] at hf
      obtain rfl : TocNode.mk i t c = nx := Option.some.inj hf
      have hblk : descIds [TocNode.mk i t c] = i :: descIds c := by simp
      rw [deleteNode_cons_self, deleteNode_not_mem hir, preT_cons,
        preT_filter_cons_out (by simp [hblk]), List.filter_append,
        preT_filter_drop (d + 1) (fun a ha => by simp [hblk, ha]),
        preT_filter_keep d (fun a ha => by
          simp only [hblk, List.mem_cons]
          push_neg
          exact ⟨fun he => hir (he ▸ ha), fun hcm => hdisj a hcm ha⟩)]
      simp
    · rw [deleteNode_cons_ne hi]
      rw [findNode_cons_ne hi] at hf
      cases hc : findNode c x with
      | some v =>
        rw [hc] at hf
        have hcx : findNode c x = some nx := hc.trans hf
        have hxc : x ∈ descIds c := (findNode_some hcx).2
        have hxr : x ∉ descIds rest := hdisj x hxc
        have hsub : ∀ a ∈ descIds [nx], a ∈ descIds c := findNode_block_sub hcx
        rw [deleteNode_not_mem hxr, preT_cons, preT_cons,
          preT_filter_cons_in (fun hmem => hic (hsub i hmem)),
          List.filter_append,
          preT_filter_keep d (fun a ha hmem => hdisj a (hsub a hmem) ha),
          ihc hndc hcx]
      | none =>
        rw [hc] at hf
        have hxc : x ∉ descIds c := findNode_eq_none.mp hc
        have hsub : ∀ a ∈ descIds [nx], a ∈ descIds rest := findNode_block_sub hf
        rw [deleteNode_not_mem hxc, preT_cons, preT_cons,
          preT_filter_cons_in (fun hmem => hir (hsub i hmem)),
          List.filter_append,
          preT_filter_keep (d + 1) (fun a ha hmem => hdisj a ha (hsub a hmem)),
          ihr hndr hf]

theorem updateNodeTitle_preT {f : List TocNode} {x nt : String}
    (hnd : (descIds f).Nodup) (hm : x ∈ descIds f) (d : Nat) :
    preT (updateNodeTitle f x nt) d =
      (preT f d).map (fun tr => if tr.1 = x then (tr.1, nt, tr.2.2) else tr) := by
  induction f using forest_ind generalizing d with
  | hnil => simp at hm
  | hcons i t c rest ihc ihr =>
    rw [descIds_cons] at hnd
    obtain ⟨hic, hir, hndc, hndr, hdisj⟩ := nodup_parts hnd
    by_cases hi : i = x
    · subst hi
      rw [updateNodeTitle_cons_self, updateNodeTitle_not_mem nt hir, preT_cons, preT_cons,
        List.map_cons, List.map_append, if_pos rfl,
        preT_map_keep nt (d + 1) hic, preT_map_keep nt d hir]
    · rw [updateNodeTitle_cons_ne hi]
      rw [descIds_cons, List.mem_cons] at hm
      rcases hm with hm | hm
      · exact absurd hm.symm hi
      rcases List.mem_append.mp hm with hm | hm
      · have hxr : x ∉ descIds rest := hdisj x hm
        rw [updateNodeTitle_not_mem nt hxr, preT_cons, preT_cons,
          List.map_cons, List.map_append, if_neg (by simpa using hi),
          preT_map_keep nt d hxr, ihc hndc hm]
      · have hxc : x ∉ descIds c := fun hcm => hdisj x hcm hm
        rw [updateNodeTitle_not_mem nt hxc, preT_cons, preT_cons,
          List.map_cons, List.map_append, if_neg (by simpa using hi),
          preT_map_keep nt (d + 1) hxc, ihr hndr hm]


/-! ### The sample forest shipped in `src/App.tsx` -/

def initialData : List TocNode :=
  [TocNode.mk "1" "Chapter 1: The Beginning"
    [TocNode.mk "1-1" "The first step" [],
     TocNode.mk "1-2" "A fork in the road"
       [TocNode.mk "1-2-1" "The left path" [],
        TocNode.mk "1-2-2" "The right path" []]],
   TocNode.mk "2" "Chapter 2: The Middle" [],
   TocNode.mk "3" "Chapter 3: The End" []]

theorem initialData_descIds :
    descIds initialData = ["1", "1-1", "1-2", "1-2-1", "1-2-2", "2", "3"] := by
  simp [initialData]

theorem initialData_nodup : (descIds initialData).Nodup := by
  rw [initialData_descIds]
  decide

/-! ### Claim theorems -/

/-- C1: the claim says a move whose `targetId` is absent leaves the forest
unchanged and never exposes a detached-but-not-reinserted state. The code
violates this: with `draggedId` present and `targetId` absent, `remove`
detaches the dragged node, `insert` finds no target and re-inserts nothing,
and the pruned forest is committed. Evaluating the code at such an input:
the dragged node `"1"` is lost from the result. -/
theorem C1_target_missing_loses_dragged_node :
    handleMoveNode [TocNode.mk "1" "A" [], TocNode.mk "2" "B" []] "1" "ghost" Pos.top =
      ([TocNode.mk "2" "B" []], MoveOutcome.moved) := by
  simp [handleMoveNode, findNode, getDescendantIds, descIds, remove, insert,
    TocNode.id, TocNode.title, TocNode.children]

/-- C2: the claim says a self-targeted move (`draggedId = targetId`) is always
rejected with the forest unchanged. The code's descendant check covers only
strict descendants, so a self-move passes it, `remove` detaches the node, and
`insert` cannot find the (just removed) target: the node and its subtree are
silently deleted instead of being kept. Evaluating the code at such an input. -/
theorem C2_self_target_deletes_node :
    handleMoveNode [TocNode.mk "1" "A" [], TocNode.mk "2" "B" []] "1" "1" Pos.top =
      ([TocNode.mk "2" "B" []], MoveOutcome.moved) := by
  simp [handleMoveNode, findNode, getDescendantIds, descIds, remove, insert,
    TocNode.id, TocNode.title, TocNode.children]

/-- C3: for every forest, every node X present in it and every id in X's
descendant set, a move of X onto that id is rejected on the
descendant-target path and returns the forest structurally unchanged,
for both positions. -/
theorem C3_descendant_target_rejected {f : List TocNode} {draggedId targetId : String}
    {dn : TocNode} (pos : Pos) (hf : findNode f draggedId = some dn)
    (ht : targetId ∈ getDescendantIds dn) :
    handleMoveNode f draggedId targetId pos = (f, MoveOutcome.rejectedDescendant) :=
  handleMoveNode_reject pos hf ht

theorem C3_witness :
    handleMoveNode [TocNode.mk "1" "A" [TocNode.mk "1-1" "B" []]] "1" "1-1" Pos.top =
      ([TocNode.mk "1" "A" [TocNode.mk "1-1" "B" []]], MoveOutcome.rejectedDescendant) ∧
    handleMoveNode [TocNode.mk "1" "A" [TocNode.mk "1-1" "B" []]] "1" "1-1" Pos.bottom =
      ([TocNode.mk "1" "A" [TocNode.mk "1-1" "B" []]], MoveOutcome.rejectedDescendant) := by
  have hf : findNode [TocNode.mk "1" "A" [TocNode.mk "1-1" "B" []]] "1" =
      some (TocNode.mk "1" "A" [TocNode.mk "1-1" "B" []]) := by
    simp [findNode]
  have ht : "1-1" ∈ getDescendantIds (TocNode.mk "1" "A" [TocNode.mk "1-1" "B" []]) := by
    simp [getDescendantIds, TocNode.children]
  exact ⟨C3_descendant_target_rejected Pos.top hf ht,
    C3_descendant_target_rejected Pos.bottom hf ht⟩

/-- C8: an id that occurs nowhere in the forest makes `addNode` (with that id
as parent), `updateNodeTitle` and `deleteNode` silent no-ops returning the
forest unchanged. -/
theorem C8_unknown_id_silent_noop {f : List TocNode} {x : String} (n : TocNode)
    (newTitle : String) (hx : x ∉ descIds f) :
    addNode f (some x) n = f ∧ updateNodeTitle f x newTitle = f ∧ deleteNode f x = f :=
  ⟨addNode_not_mem n hx, updateNodeTitle_not_mem newTitle hx, deleteNode_not_mem hx⟩

theorem C8_witness :
    "nonexistent" ∉ descIds initialData ∧
    addNode initialData (some "nonexistent") (TocNode.mk "9" "New Section" []) = initialData ∧
    updateNodeTitle initialData "nonexistent" "X" = initialData ∧
    deleteNode initialData "nonexistent" = initialData := by
  have hx : "nonexistent" ∉ descIds initialData := by
    rw [initialData_descIds]
    decide
  obtain ⟨h1, h2, h3⟩ := C8_unknown_id_silent_noop (TocNode.mk "9" "New Section" []) "X" hx
  exact ⟨hx, h1, h2, h3⟩

/-- C9: renaming a present node (with any new title, the empty string
included) changes exactly that node's title in the preorder observation:
ids, depths (hence children and nesting), order and all other titles are
untouched. -/
theorem C9_rename_changes_only_title {f : List TocNode} {x : String} (newTitle : String)
    (hnd : (descIds f).Nodup) (hm : x ∈ descIds f) :
    preT (updateNodeTitle f x newTitle) 0 =
      (preT f 0).map (fun tr => if tr.1 = x then (tr.1, newTitle, tr.2.2) else tr) :=
  updateNodeTitle_preT hnd hm 0

theorem C9_witness :
    (descIds initialData).Nodup ∧ "2" ∈ descIds initialData ∧
    preT (updateNodeTitle initialData "2" "") 0 =
      (preT initialData 0).map (fun tr => if tr.1 = "2" then (tr.1, "", tr.2.2) else tr) := by
  have hm : "2" ∈ descIds initialData := by
    rw [initialData_descIds]
    decide
  exact ⟨initialData_nodup, hm, C9_rename_changes_only_title "" initialData_nodup hm⟩

/-- C10: `addNode` performs no duplicate-identifier check: adding a node whose
id already occurs in the forest (at the root or under any present parent)
yields a forest in which that id occurs twice. -/
theorem C10_add_no_duplicate_id_check {f : List TocNode} {x : String} {n : TocNode}
    (hnd : (descIds f).Nodup) (hx : x ∈ descIds f) (hid : n.id = x)
    (hfresh : x ∉ getDescendantIds n) :
    (descIds (addNode f none n)).count x = 2 ∧
    ∀ p ∈ descIds f, (descIds (addNode f (some p) n)).count x = 2 := by
  have hcf : (descIds f).count x = 1 := List.count_eq_one_of_mem hnd hx
  have hcn : (descIds [n]).count x = 1 := by
    rw [descIds_singleton, hid, List.count_cons, List.count_eq_zero.mpr hfresh]
    simp
  constructor
  · have hroot : addNode f none n = f ++ [n] := by simp [addNode]
    rw [hroot, descIds_append, List.count_append, hcf, hcn]
  · intro p hp
    rw [addNode_count n hnd hp x, hcf, hcn]

theorem C10_witness :
    (descIds (addNode initialData none (TocNode.mk "2" "New Section" []))).count "2" = 2 ∧
    (descIds (addNode initialData (some "1") (TocNode.mk "2" "New Section" []))).count "2" = 2 := by
  have hx : "2" ∈ descIds initialData := by
    rw [initialData_descIds]
    decide
  have h := C10_add_no_duplicate_id_check initialData_nodup hx
    (show (TocNode.mk "2" "New Section" []).id = "2" from rfl)
    (show "2" ∉ getDescendantIds (TocNode.mk "2" "New Section" []) by
      simp [getDescendantIds, TocNode.children])
  exact ⟨h.1, h.2 "1" (by rw [initialData_descIds]; decide)⟩


/-- C4: starting from a forest satisfying the id-uniqueness invariant, any
sequence of add (with a fresh, internally duplicate-free new node), rename,
delete and move operations yields an acyclic forest: no node is reachable
from itself through `children`. -/
theorem C4_sequences_preserve_acyclicity {f : List TocNode} {ops : List Op}
    (hnd : (descIds f).Nodup) (hops : goodOps f ops) :
    Acyclic (applyOps f ops) :=
  nodup_acyclic (nodup_applyOps hnd hops)

theorem C4_witness :
    (descIds initialData).Nodup ∧
    Acyclic (applyOps initialData
      [Op.add (some "2") (TocNode.mk "4" "New Section" []),
       Op.move "1-1" "3" Pos.bottom,
       Op.del "1-2",
       Op.rename "3" "Epilogue"]) := by
  refine ⟨initialData_nodup, C4_sequences_preserve_acyclicity initialData_nodup ?_⟩
  simp only [goodOps, freshOk, and_true, true_and]
  constructor
  · rw [show descIds [TocNode.mk "4" "New Section" []] = ["4"] from by simp]
    decide
  · intro y hy
    rw [show descIds [TocNode.mk "4" "New Section" []] = ["4"] from by simp] at hy
    simp only [List.mem_singleton] at hy
    subst hy
    rw [initialData_descIds]
    decide

/-- C5: when the dragged node is present, the target is present, distinct from
the dragged id and not among its descendants, the move commits: the outcome is
`moved`, the result holds exactly the ids of the input (the dragged subtree is
detached and re-inserted whole), and the dragged node lands immediately before
the target for `top` and immediately after it for `bottom`; in particular the
spec's concrete scenario `move("1-1","1",top)` produces
`[{1-1},{1,children:[]}]`. -/
theorem C5_move_splices_adjacent_to_target :
    (∀ (f : List TocNode) (draggedId targetId : String) (pos : Pos) (dn : TocNode),
      (descIds f).Nodup →
      findNode f draggedId = some dn →
      targetId ∈ descIds f →
      targetId ≠ draggedId →
      targetId ∉ getDescendantIds dn →
      (handleMoveNode f draggedId targetId pos).2 = MoveOutcome.moved ∧
      (descIds (handleMoveNode f draggedId targetId pos).1).Perm (descIds f) ∧
      (pos = Pos.top → AdjIn (handleMoveNode f draggedId targetId pos).1 draggedId targetId) ∧
      (pos = Pos.bottom → AdjIn (handleMoveNode f draggedId targetId pos).1 targetId draggedId)) ∧
    handleMoveNode [TocNode.mk "1" "A" [TocNode.mk "1-1" "B" []]] "1-1" "1" Pos.top =
      ([TocNode.mk "1-1" "B" [], TocNode.mk "1" "A" []], MoveOutcome.moved) := by
  constructor
  · intro f draggedId targetId pos dn hnd hf hmt hne hnotd
    have hrej : ∀ fd, findNode f draggedId = some fd → targetId ∉ getDescendantIds fd := by
      intro fd hfd
      rw [hf] at hfd
      obtain rfl : dn = fd := Option.some.inj hfd
      exact hnotd
    have hmove := handleMoveNode_eq_proceed pos hrej
    have hdm : draggedId ∈ descIds f := (findNode_some hf).2
    cases hr : (remove f draggedId).2 with
    | none => exact absurd hdm (remove_snd_eq_none.mp hr)
    | some dn2 =>
      have hdn2 : dn2 = dn := by
        have hfd := remove_findNode hnd hr
        rw [hf] at hfd
        exact (Option.some.inj hfd).symm
      rw [hdn2] at hr
      rw [hmove, hr]
      obtain ⟨hid, pre, suf, h1, h2⟩ := remove_split hnd hr
      have hnd1 : (descIds (remove f draggedId).1).Nodup := by
        rw [h2]
        have hs : List.Sublist (pre ++ suf) (pre ++ (descIds [dn] ++ suf)) :=
          (List.sublist_append_right (descIds [dn]) suf).append_left pre
        refine hs.nodup ?_
        rw [← List.append_assoc, ← h1]
        exact hnd
      have htm : targetId ∈ descIds (remove f draggedId).1 := by
        rw [h2]
        have hmt2 : targetId ∈ pre ++ descIds [dn] ++ suf := h1 ▸ hmt
        rcases List.mem_append.mp hmt2 with hA | hsuf
        · rcases List.mem_append.mp hA with hpre | hblk
          · exact List.mem_append.mpr (Or.inl hpre)
          · exfalso
            rw [descIds_singleton, List.mem_cons] at hblk
            rcases hblk with he | hdesc
            · exact hne (he.trans hid)
            · exact hnotd hdesc
        · exact List.mem_append.mpr (Or.inr hsuf)
      refine ⟨rfl, ?_, ?_, ?_⟩
      · rw [List.perm_iff_count]
        intro a
        show (descIds (insert (remove f draggedId).1 targetId dn pos)).count a =
          (descIds f).count a
        rw [insert_count dn pos hnd1 htm a, h2, h1]
        simp only [List.count_append]
        omega
      · intro hp
        subst hp
        show AdjIn (insert (remove f draggedId).1 targetId dn Pos.top) draggedId targetId
        have hadj := insert_adj_top dn htm
        rw [hid] at hadj
        exact hadj
      · intro hp
        subst hp
        show AdjIn (insert (remove f draggedId).1 targetId dn Pos.bottom) targetId draggedId
        have hadj := insert_adj_bottom dn htm
        rw [hid] at hadj
        exact hadj
  · simp [handleMoveNode, findNode, getDescendantIds, descIds, remove, insert,
      TocNode.id, TocNode.title, TocNode.children]

theorem C5_witness :
    (handleMoveNode [TocNode.mk "1" "A" [TocNode.mk "1-1" "B" []]] "1-1" "1" Pos.top).2 =
      MoveOutcome.moved ∧
    AdjIn (handleMoveNode [TocNode.mk "1" "A" [TocNode.mk "1-1" "B" []]] "1-1" "1" Pos.top).1
      "1-1" "1" := by
  have h := C5_move_splices_adjacent_to_target.1
    [TocNode.mk "1" "A" [TocNode.mk "1-1" "B" []]] "1-1" "1" Pos.top (TocNode.mk "1-1" "B" [])
    (by rw [show descIds [TocNode.mk "1" "A" [TocNode.mk "1-1" "B" []]] = ["1", "1-1"]
          from by simp]
        decide)
    (by simp [findNode])
    (by simp)
    (by decide)
    (by simp [getDescendantIds, TocNode.children])
  exact ⟨h.1, h.2.2.1 rfl⟩

/-- C6: deleting a present node removes exactly that node's subtree: none of
the subtree's ids survive, and the preorder (id, title, depth) observation of
the result is the input's observation with precisely the subtree's entries
filtered out — so no other node is removed, added, retitled or reordered. -/
theorem C6_delete_removes_subtree_only {f : List TocNode} {x : String} {nx : TocNode}
    (hnd : (descIds f).Nodup) (hf : findNode f x = some nx) :
    (∀ a ∈ descIds [nx], a ∉ descIds (deleteNode f x)) ∧
    preT (deleteNode f x) 0 =
      (preT f 0).filter (fun tr => decide (tr.1 ∉ descIds [nx])) := by
  have hpre := deleteNode_preT hnd hf 0
  refine ⟨?_, hpre⟩
  intro a ha hmem
  rw [← preT_fst (deleteNode f x) 0] at hmem
  obtain ⟨tr, htr, hfst⟩ := List.mem_map.mp hmem
  rw [hpre] at htr
  obtain ⟨_, hpass⟩ := List.mem_filter.mp htr
  rw [hfst] at hpass
  simp only [decide_eq_true_eq] at hpass
  exact hpass ha

theorem C6_witness :
    "1-2" ∉ descIds (deleteNode initialData "1-2") ∧
    "1-2-1" ∉ descIds (deleteNode initialData "1-2") ∧
    "1-2-2" ∉ descIds (deleteNode initialData "1-2") := by
  have hf : findNode initialData "1-2" = some (TocNode.mk "1-2" "A fork in the road"
      [TocNode.mk "1-2-1" "The left path" [], TocNode.mk "1-2-2" "The right path" []]) := by
    simp [initialData, findNode]
  have h := (C6_delete_removes_subtree_only initialData_nodup hf).1
  refine ⟨h "1-2" ?_, h "1-2-1" ?_, h "1-2-2" ?_⟩ <;> simp

/-- C7: adding with a null parent appends the new node as the last root
element; adding under a present parent makes the new node the last child of
that parent with the prior children kept in order, and every node whose
subtree does not contain the parent is returned unchanged. -/
theorem C7_add_appends_as_last_child {f : List TocNode} {p : String} {np : TocNode}
    (n : TocNode) (hp : findNode f p = some np) :
    addNode f none n = f ++ [n] ∧
    findNode (addNode f (some p) n) p =
      some (TocNode.mk np.id np.title (np.children ++ [n])) ∧
    ∀ q nq, findNode f q = some nq → p ∉ descIds [nq] → q ∉ descIds [n] →
      findNode (addNode f (some p) n) q = some nq :=
  ⟨by simp [addNode], addNode_findNode_parent n hp,
    fun _ _ h1 h2 h3 => addNode_findNode_frame h1 h2 h3⟩

theorem C7_witness :
    findNode (addNode initialData (some "2") (TocNode.mk "9" "New Section" [])) "2" =
      some (TocNode.mk "2" "Chapter 2: The Middle" [TocNode.mk "9" "New Section" []]) ∧
    findNode (addNode initialData (some "2") (TocNode.mk "9" "New Section" [])) "3" =
      some (TocNode.mk "3" "Chapter 3: The End" []) := by
  have hp : findNode initialData "2" = some (TocNode.mk "2" "Chapter 2: The Middle" []) := by
    simp [initialData, findNode]
  have h := C7_add_appends_as_last_child (TocNode.mk "9" "New Section" []) hp
  refine ⟨?_, ?_⟩
  · have h2 := h.2.1
    simpa [TocNode.id, TocNode.title, TocNode.children] using h2
  · exact h.2.2 "3" (TocNode.mk "3" "Chapter 3: The End" [])
      (by simp [initialData, findNode])
      (by simp)
      (by simp)

end App
